import Mathlib

/-!
Verification of the bitcoin-embed library: a shallow embedding of the
varint codec, the tagged message framing (src/message.rs), the envelope
codec (src/envelope.rs), and the transaction-wide embedding scanner and
identifier scheme (src/lib.rs), together with theorems settling the
specification claims.

Bytes are modelled as natural numbers, byte strings as lists of naturals,
and machine integers as naturals with explicit bounds where the source
checks them.  Loops over a shrinking buffer are modelled with an explicit
fuel argument that is initialised to an amount provably larger than the
number of iterations the source loop can perform (every iteration consumes
at least one element), keeping every definition kernel-reducible.
-/

set_option linter.unusedVariables false
set_option maxRecDepth 100000

deriving instance DecidableEq for Except

namespace BitcoinEmbed

/-! ### VarInt codec

The varint module is referenced by the source (use crate::varint) but its
code is not part of the analysed sources, so it is modelled from the spec.
-/

/-- Modelled from the spec: the varint encoder of the missing module
src/varint.rs.  "unsigned LEB128, 7 bits per byte little-endian group
order, high bit = continuation", minimal encoding.  The fuel argument
bounds the iteration count; fuel = v always suffices because the value
shrinks by a factor of 128 each step. -/
def varintEncodeGo : Nat → Nat → List Nat
  | 0, v => [v % 128]
  | fuel + 1, v => if v < 128 then [v] else (v % 128 + 128) :: varintEncodeGo fuel (v / 128)

/-- Modelled from the spec: encode of the missing module src/varint.rs. -/
def varintEncode (v : Nat) : List Nat :=
  varintEncodeGo v v

/-- Modelled from the spec: decode of the missing module src/varint.rs.
Returns the decoded value and the number of bytes consumed; fails (none)
when the stream ends before a byte without the continuation bit. -/
def varintDecode : List Nat → Option (Nat × Nat)
  | [] => none
  | b :: rest =>
    if b < 128 then some (b, 1)
    else
      match varintDecode rest with
      | none => none
      | some (v, s) => some (b - 128 + 128 * v, s + 1)

/-! ### Tagged message framing (src/message.rs) -/

/-- Embeds message::Error from src/message.rs. -/
inductive MessageError where
  | invalidTag
  | invalidVarInt
  | invalidByteCount
  | invalidFinalSizeByte
  | missingBytes
  deriving DecidableEq

/-- Embeds the Message struct from src/message.rs: a tag with a body. -/
structure Message where
  tag : Nat
  body : List Nat
  deriving DecidableEq

/-- The validity invariant established by Message::new in src/message.rs:
nonzero tag of at most 127 bits and a body of at most 2^32 - 1 bytes. -/
def validMessage (m : Message) : Prop :=
  m.tag ≠ 0 ∧ m.tag ≤ 2 ^ 127 - 1 ∧ m.body.length ≤ 2 ^ 32 - 1

instance (m : Message) : Decidable (validMessage m) := by
  unfold validMessage; infer_instance

/-- Embeds the loop of Message::encode from src/message.rs, recursing on
the remaining messages; the second argument is the running last_tag. -/
def encodeGo : List Message → Nat → List Nat
  | [], _ => []
  | [m], lastTag =>
    (if m.tag = lastTag then [1] else varintEncode (2 * m.tag + 1)) ++ m.body
  | m :: m2 :: rest, lastTag =>
    (if m.tag = lastTag then [0] else varintEncode (2 * m.tag))
      ++ varintEncode m.body.length ++ m.body ++ encodeGo (m2 :: rest) m.tag

/-- Embeds Message::encode from src/message.rs (last_tag starts at 0). -/
def Message.encode (messages : List Message) : List Nat :=
  encodeGo messages 0

/-- Embeds the loop of Message::decode from src/message.rs, recursing on
the remaining bytes; the third argument is the running last_tag.  The
fuel-0 branch is unreachable from Message.decode because every iteration
consumes at least one byte. -/
def decodeGo : Nat → List Nat → Nat → Except MessageError (List Message)
  | _, [], _ => .ok []
  | 0, _ :: _, _ => .error .invalidVarInt
  | fuel + 1, b :: bs, lastTag =>
    match varintDecode (b :: bs) with
    | none => .error .invalidVarInt
    | some (v, s) =>
      let rest := (b :: bs).drop s
      let tag0 := v / 2
      if tag0 = lastTag then .error .invalidTag
      else
        let tag := if tag0 = 0 then lastTag else tag0
        if v % 2 = 1 then .ok [⟨tag, rest⟩]
        else if rest.isEmpty then .error .missingBytes
        else
          match varintDecode rest with
          | none => .error .invalidVarInt
          | some (n, s2) =>
            let rest2 := rest.drop s2
            if n = 0 then .ok [⟨tag, rest2⟩]
            else if 2 ^ 32 - 1 < n then .error .invalidByteCount
            else if rest2.length < n then .error .missingBytes
            else if n = rest2.length then .error .invalidFinalSizeByte
            else
              match decodeGo fuel (rest2.drop n) tag with
              | .ok ms => .ok (⟨tag, rest2.take n⟩ :: ms)
              | .error e => .error e

/-- Embeds Message::decode from src/message.rs. -/
def Message.decode (bytes : List Nat) : Except MessageError (List Message) :=
  decodeGo (bytes.length + 1) bytes 0

/-- A record sequence in which every record except the final one has a
non-empty body; the condition under which the framing round-trips. -/
def nonFinalNonempty : List Message → Bool
  | [] => true
  | [_] => true
  | m :: m2 :: rest => !m.body.isEmpty && nonFinalNonempty (m2 :: rest)

theorem varintEncodeGo_ne_nil (fuel v : Nat) : varintEncodeGo fuel v ≠ [] := by
  cases fuel with
  | zero => simp [varintEncodeGo]
  | succ f =>
    unfold varintEncodeGo
    split <;> simp

theorem varintEncode_ne_nil (v : Nat) : varintEncode v ≠ [] :=
  varintEncodeGo_ne_nil v v

theorem varintDecode_encodeGo_append (fuel v : Nat) (r : List Nat) (h : v ≤ fuel) :
    varintDecode (varintEncodeGo fuel v ++ r) = some (v, (varintEncodeGo fuel v).length) := by
  induction fuel generalizing v with
  | zero =>
    interval_cases v
    simp [varintEncodeGo, varintDecode]
  | succ f ih =>
    by_cases hv : v < 128
    · simp only [varintEncodeGo]
      rw [if_pos hv]
      simp [varintDecode, hv]
    · have h2 : v / 128 ≤ f := by
        have := Nat.div_lt_self (by omega : 0 < v) (by omega : 1 < 128)
        omega
      have hval : v % 128 + 128 - 128 + 128 * (v / 128) = v := by
        have := Nat.mod_add_div v 128
        omega
      simp only [varintEncodeGo]
      rw [if_neg hv]
      simp [varintDecode, show ¬ (v % 128 + 128 < 128) by omega, ih (v / 128) h2, hval]
      omega

theorem varintDecode_encode_append (v : Nat) (r : List Nat) :
    varintDecode (varintEncode v ++ r) = some (v, (varintEncode v).length) :=
  varintDecode_encodeGo_append v v r (Nat.le_refl v)

theorem encodeGo_ne_nil (m : Message) (tail : List Message) (lastTag : Nat) :
    encodeGo (m :: tail) lastTag ≠ [] := by
  cases tail with
  | nil =>
    unfold encodeGo
    split <;> simp_all [varintEncode_ne_nil]
  | cons m2 rest =>
    unfold encodeGo
    split <;> simp_all [varintEncode_ne_nil]

/-- One iteration of the decode loop, expressed on a buffer that starts
with an encoded varint. -/
theorem decodeGo_step (fuel v : Nat) (r : List Nat) (lastTag : Nat) :
    decodeGo (fuel + 1) (varintEncode v ++ r) lastTag =
      (if v / 2 = lastTag then .error .invalidTag
       else
         let tag := if v / 2 = 0 then lastTag else v / 2
         if v % 2 = 1 then .ok [⟨tag, r⟩]
         else if r.isEmpty then .error .missingBytes
         else
           match varintDecode r with
           | none => .error .invalidVarInt
           | some (n, s2) =>
             let rest2 := r.drop s2
             if n = 0 then .ok [⟨tag, rest2⟩]
             else if 2 ^ 32 - 1 < n then .error .invalidByteCount
             else if rest2.length < n then .error .missingBytes
             else if n = rest2.length then .error .invalidFinalSizeByte
             else
               match decodeGo fuel (rest2.drop n) tag with
               | .ok ms => .ok (⟨tag, rest2.take n⟩ :: ms)
               | .error e => .error e) := by
  have hne := varintEncode_ne_nil v
  obtain ⟨b, tail, h⟩ := List.exists_cons_of_ne_nil hne
  have hdec := varintDecode_encode_append v r
  have hdrop : (varintEncode v ++ r).drop (varintEncode v).length = r :=
    List.drop_left (varintEncode v) r
  rw [h] at hdec hdrop ⊢
  simp only [List.cons_append] at hdec hdrop ⊢
  conv_lhs => rw [decodeGo]
  rw [hdec]
  simp only [hdrop]

/-- Decoding inverts encoding, at any running last_tag, for records with
nonzero tags, bounded bodies, and no empty non-final body. -/
theorem decodeGo_encodeGo (msgs : List Message) :
    ∀ (lastTag fuel : Nat),
      (∀ m ∈ msgs, m.tag ≠ 0 ∧ m.body.length ≤ 2 ^ 32 - 1) →
      nonFinalNonempty msgs = true →
      (encodeGo msgs lastTag).length < fuel →
      decodeGo fuel (encodeGo msgs lastTag) lastTag = .ok msgs := by
  induction msgs with
  | nil =>
    intro lastTag fuel _ _ _
    cases fuel <;> simp [encodeGo, decodeGo]
  | cons m tail ih =>
    cases tail with
    | nil =>
      intro lastTag fuel hvalid _ hfuel
      obtain ⟨htag, _⟩ := hvalid m (List.mem_cons_self m _)
      obtain ⟨f, rfl⟩ : ∃ f, fuel = f + 1 := ⟨fuel - 1, by omega⟩
      by_cases hrep : m.tag = lastTag
      · subst hrep
        have he : encodeGo [m] m.tag = varintEncode 1 ++ m.body := by
          simp [encodeGo, varintEncode, varintEncodeGo]
        rw [he, decodeGo_step]
        have hne : ¬ ((1 : Nat) / 2 = m.tag) := by omega
        rw [if_neg hne]
        simp
      · have he : encodeGo [m] lastTag = varintEncode (2 * m.tag + 1) ++ m.body := by
          simp [encodeGo, hrep]
        rw [he, decodeGo_step]
        have hd : (2 * m.tag + 1) / 2 = m.tag := by omega
        have hm : (2 * m.tag + 1) % 2 = 1 := by omega
        rw [hd]
        simp [hrep, hm, htag]
    | cons m2 rest =>
      intro lastTag fuel hvalid hnf hfuel
      obtain ⟨htag, hbound⟩ := hvalid m (List.mem_cons_self m _)
      have hnf' : m.body.isEmpty = false ∧ nonFinalNonempty (m2 :: rest) = true := by
        simpa [nonFinalNonempty, Bool.and_eq_true] using hnf
      obtain ⟨hbody, hnftail⟩ := hnf'
      have hbody' : m.body ≠ [] := by simpa [List.isEmpty_iff] using hbody
      have hT : (if m.tag = lastTag then ([0] : List Nat) else varintEncode (2 * m.tag))
          = varintEncode (if m.tag = lastTag then 0 else 2 * m.tag) := by
        split <;> rfl
      have he : encodeGo (m :: m2 :: rest) lastTag
          = varintEncode (if m.tag = lastTag then 0 else 2 * m.tag)
            ++ (varintEncode m.body.length
              ++ (m.body ++ encodeGo (m2 :: rest) m.tag)) := by
        simp only [encodeGo, hT, List.append_assoc]
      have hv2 : (if m.tag = lastTag then 0 else 2 * m.tag) % 2 = 0 := by
        split <;> omega
      have hvd : (if m.tag = lastTag then 0 else 2 * m.tag) / 2
          = if m.tag = lastTag then 0 else m.tag := by
        split <;> omega
      have hne : ¬ ((if m.tag = lastTag then 0 else 2 * m.tag) / 2 = lastTag) := by
        rw [hvd]
        split
        · omega
        · assumption
      have htagsel :
          (if (if m.tag = lastTag then 0 else 2 * m.tag) / 2 = 0 then lastTag
            else (if m.tag = lastTag then 0 else 2 * m.tag) / 2) = m.tag := by
        rw [hvd]
        by_cases hrep : m.tag = lastTag <;> simp [hrep, htag]
      obtain ⟨f, rfl⟩ : ∃ f, fuel = f + 1 := ⟨fuel - 1, by omega⟩
      rw [he, decodeGo_step]
      rw [if_neg hne]
      have hdec2 : varintDecode (varintEncode m.body.length
            ++ (m.body ++ encodeGo (m2 :: rest) m.tag))
          = some (m.body.length, (varintEncode m.body.length).length) :=
        varintDecode_encode_append _ _
      have hdrop2 : (varintEncode m.body.length
            ++ (m.body ++ encodeGo (m2 :: rest) m.tag)).drop
            (varintEncode m.body.length).length
          = m.body ++ encodeGo (m2 :: rest) m.tag := List.drop_left _ _
      have hEne : encodeGo (m2 :: rest) m.tag ≠ [] := encodeGo_ne_nil m2 rest m.tag
      have hElen : 0 < (encodeGo (m2 :: rest) m.tag).length := List.length_pos.mpr hEne
      have hie : (varintEncode m.body.length
            ++ (m.body ++ encodeGo (m2 :: rest) m.tag)).isEmpty = false := by
        simp [List.isEmpty_iff, varintEncode_ne_nil]
      have hb0 : ¬ (m.body.length = 0) := by
        simpa [List.length_eq_zero] using hbody'
      have hbc : ¬ (2 ^ 32 - 1 < m.body.length) := by omega
      have hml : ¬ ((m.body ++ encodeGo (m2 :: rest) m.tag).length < m.body.length) := by
        rw [List.length_append]
        omega
      have hfe : ¬ (m.body.length = (m.body ++ encodeGo (m2 :: rest) m.tag).length) := by
        rw [List.length_append]
        omega
      have hvlen : 0 < (varintEncode (if m.tag = lastTag then 0 else 2 * m.tag)).length :=
        List.length_pos.mpr (varintEncode_ne_nil _)
      have hrec : decodeGo f (encodeGo (m2 :: rest) m.tag) m.tag = .ok (m2 :: rest) := by
        apply ih m.tag f (fun m' hm' => hvalid m' (List.mem_cons_of_mem m hm')) hnftail
        rw [he] at hfuel
        rw [List.length_append, List.length_append, List.length_append] at hfuel
        omega
      simp [hv2, hie, hdec2, hdrop2, htagsel, hb0, hbc, hml, hfe,
        List.take_left, List.drop_left, hrec]
      rw [if_neg (show ¬ (4294967295 < m.body.length) by omega), if_neg hEne]

/-- C1, counterexample: the records (1, empty body) and (2, body [3]) are
both valid per Message::new, yet decoding their encoding yields a single
record (1, [5, 3]) instead of the original pair, because the empty
non-final body is encoded with length varint 0, which the decoder reads as
"the body is all remaining bytes". -/
theorem claim_C1_counterexample :
    validMessage ⟨1, []⟩ ∧ validMessage ⟨2, [3]⟩ ∧
    Message.decode (Message.encode [⟨1, []⟩, ⟨2, [3]⟩]) = .ok [⟨1, [5, 3]⟩] ∧
    Message.decode (Message.encode [⟨1, []⟩, ⟨2, [3]⟩]) ≠ .ok [⟨1, []⟩, ⟨2, [3]⟩] := by
  decide

/-- C1, amended: for every sequence of valid records in which every record
except the final one has a non-empty body, Message::decode inverts
Message::encode. -/
theorem claim_C1_roundtrip (msgs : List Message)
    (hvalid : ∀ m ∈ msgs, validMessage m)
    (hnf : nonFinalNonempty msgs = true) :
    Message.decode (Message.encode msgs) = .ok msgs := by
  unfold Message.decode Message.encode
  exact decodeGo_encodeGo msgs 0 _
    (fun m hm => ⟨(hvalid m hm).1, (hvalid m hm).2.2⟩) hnf (Nat.lt_succ_self _)

/-- C1, witness: the amended round trip evaluated on a concrete two-record
sequence. -/
theorem claim_C1_witness :
    Message.decode (Message.encode [⟨1, [7]⟩, ⟨2, []⟩]) = .ok [⟨1, [7]⟩, ⟨2, []⟩] :=
  claim_C1_roundtrip [⟨1, [7]⟩, ⟨2, []⟩] (by decide) (by decide)

/-- C2, counterexample: decoding the stream [2, 0, 9] (non-terminal tag 1,
length varint 0, one further byte) yields the single record (1, [9]) with
the remainder as its body, not an empty-body record followed by the record
(4, empty) that decoding the rest of the stream would produce. -/
theorem claim_C2_counterexample :
    Message.decode [2, 0, 9] = .ok [⟨1, [9]⟩] ∧
    Message.decode [2, 0, 9] ≠ .ok [⟨1, []⟩, ⟨4, []⟩] := by
  decide

/-- C2, amended: for a non-last record (header varint v with terminal bit
clear and tag v / 2 passing the repeat check), the length varint n with
n = 0 means the body is all remaining bytes and decoding stops there;
n greater than 2^32 - 1 is rejected with InvalidByteCount; and positive
in-range n is the exact explicit body length, continuing with MissingBytes
or InvalidFinalSizeByte exactly when the buffer is too short or exactly
exhausted. -/
theorem claim_C2_length_semantics (fuel v n lt : Nat) (r : List Nat)
    (hv : v % 2 = 0) (ht : ¬ v / 2 = lt) :
    (n = 0 →
      decodeGo (fuel + 1) (varintEncode v ++ (varintEncode n ++ r)) lt
        = .ok [⟨if v / 2 = 0 then lt else v / 2, r⟩]) ∧
    (2 ^ 32 - 1 < n →
      decodeGo (fuel + 1) (varintEncode v ++ (varintEncode n ++ r)) lt
        = .error .invalidByteCount) ∧
    (0 < n → n ≤ 2 ^ 32 - 1 → n < r.length →
      decodeGo (fuel + 1) (varintEncode v ++ (varintEncode n ++ r)) lt
        = match decodeGo fuel (r.drop n) (if v / 2 = 0 then lt else v / 2) with
          | .ok ms => .ok (⟨if v / 2 = 0 then lt else v / 2, r.take n⟩ :: ms)
          | .error e => .error e) ∧
    (0 < n → n ≤ 2 ^ 32 - 1 → r.length < n →
      decodeGo (fuel + 1) (varintEncode v ++ (varintEncode n ++ r)) lt
        = .error .missingBytes) ∧
    (0 < n → n ≤ 2 ^ 32 - 1 → n = r.length →
      decodeGo (fuel + 1) (varintEncode v ++ (varintEncode n ++ r)) lt
        = .error .invalidFinalSizeByte) := by
  have hie : (varintEncode n ++ r).isEmpty = false := by
    simp [List.isEmpty_iff, varintEncode_ne_nil]
  have hdec : varintDecode (varintEncode n ++ r) = some (n, (varintEncode n).length) :=
    varintDecode_encode_append _ _
  have hdrop : (varintEncode n ++ r).drop (varintEncode n).length = r :=
    List.drop_left _ _
  have hstep : decodeGo (fuel + 1) (varintEncode v ++ (varintEncode n ++ r)) lt
      = (if n = 0 then .ok [⟨if v / 2 = 0 then lt else v / 2, r⟩]
         else if 2 ^ 32 - 1 < n then .error .invalidByteCount
         else if r.length < n then .error .missingBytes
         else if n = r.length then .error .invalidFinalSizeByte
         else match decodeGo fuel (r.drop n) (if v / 2 = 0 then lt else v / 2) with
           | .ok ms => .ok (⟨if v / 2 = 0 then lt else v / 2, r.take n⟩ :: ms)
           | .error e => .error e) := by
    rw [decodeGo_step, if_neg ht]
    simp [hv, hie, hdec, hdrop]
  refine ⟨?_, ?_, ?_, ?_, ?_⟩
  · intro h0
    rw [hstep, if_pos h0]
  · intro hbig
    rw [hstep, if_neg (by omega), if_pos hbig]
  · intro h1 h2 h3
    rw [hstep, if_neg (by omega), if_neg (by omega), if_neg (by omega),
      if_neg (by omega)]
  · intro h1 h2 h3
    rw [hstep, if_neg (by omega), if_neg (by omega), if_pos h3]
  · intro h1 h2 h3
    rw [hstep, if_neg (by omega), if_neg (by omega), if_neg (by omega), if_pos h3]

/-- C2, witness: the amended length semantics evaluated on the concrete
non-last record header 2 (tag 1) with length varint 0 and remainder [9]. -/
theorem claim_C2_witness :
    decodeGo 2 (varintEncode 2 ++ (varintEncode 0 ++ [9])) 0 = .ok [⟨1, [9]⟩] := by
  have h := (claim_C2_length_semantics 1 2 0 0 [9] (by decide) (by decide)).1 rfl
  simpa using h

/-- C3, counterexample: the stream [1] starts with a varint v = 1 whose
tag v / 2 is the sentinel 0, and Message::decode rejects it with
InvalidTag instead of succeeding with a tag-0 record: the repeat check
fires because last_tag is initialised to 0. -/
theorem claim_C3_counterexample :
    varintDecode [1] = some (1, 1) ∧ (1 : Nat) / 2 = 0 ∧
    Message.decode [1] = .error .invalidTag ∧
    Message.decode [1] ≠ .ok [⟨0, []⟩] := by
  decide

/-- C3, amended: Message::decode of any stream whose very first record
header varint v satisfies v / 2 = 0 (the sentinel tag) fails with
InvalidTag. -/
theorem claim_C3_sentinel_first (bytes : List Nat) (v s : Nat)
    (h : varintDecode bytes = some (v, s)) (hv : v / 2 = 0) :
    Message.decode bytes = .error .invalidTag := by
  unfold Message.decode
  cases bytes with
  | nil => simp [varintDecode] at h
  | cons b bs =>
    rw [show (b :: bs).length + 1 = (bs.length + 1) + 1 from rfl]
    conv_lhs => rw [decodeGo]
    rw [h]
    simp [hv]

/-- C3, witness: the amended sentinel-first behaviour evaluated on the
concrete stream [1]. -/
theorem claim_C3_witness : Message.decode [1] = .error .invalidTag :=
  claim_C3_sentinel_first [1] 1 1 (by decide) (by decide)

/-- C7: the three rejection cases of Message::decode: a truncated varint
fails with InvalidVarInt, a declared body length exceeding the remaining
bytes fails with MissingBytes, and a non-terminal record whose declared
length exactly exhausts the buffer fails with InvalidFinalSizeByte. -/
theorem claim_C7_rejections :
    Message.decode [0xFF] = .error .invalidVarInt ∧
    Message.decode [2, 10, 1, 2, 3] = .error .missingBytes ∧
    Message.decode [2, 3, 1, 2, 3] = .error .invalidFinalSizeByte := by
  decide

/-- C8: encoding the records (1, "ab"), (1, "cd"), (2, "ef") produces the
exact byte layout with the repeated tag compressed to the single byte 0
and the final tag terminal-encoded with no length (97, 98, 99, 100, 101,
102 are the byte values of a to f). -/
theorem claim_C8_layout :
    Message.encode [⟨1, [97, 98]⟩, ⟨1, [99, 100]⟩, ⟨2, [101, 102]⟩]
      = [2, 2, 97, 98, 0, 2, 99, 100, 5, 101, 102] := by
  decide

/-! ### Envelope codec (src/envelope.rs)

Scripts are modelled at the instruction-stream level exposed by the
external bitcoin library: a list of instructions, each either an opcode
byte or a data push.  The canonical OP_FALSE encoding is the empty data
push, which is how the instruction iterator of the external library
presents it. -/

/-- Embeds the bitcoin script Instruction shape consumed by
src/envelope.rs: an opcode (identified by its byte value) or a data
push. -/
inductive Instruction where
  | Op : Nat → Instruction
  | PushBytes : List Nat → Instruction
  deriving DecidableEq

/-- An envelope is an ordered sequence of byte chunks, as in
src/envelope.rs. -/
abbrev Envelope := List (List Nat)

/-- Opcode byte of OP_IF. -/
def OP_IF : Nat := 0x63

/-- Opcode byte of OP_ENDIF. -/
def OP_ENDIF : Nat := 0x68

/-- Opcode byte of OP_DUP. -/
def OP_DUP : Nat := 0x76

/-- Opcode byte of OP_EQUALVERIFY. -/
def OP_EQUALVERIFY : Nat := 0x88

/-- Embeds the numeric-push match arms of from_instructions in
src/envelope.rs: OP_PUSHNUM_NEG1 and OP_PUSHNUM_1 .. OP_PUSHNUM_16 decode
to their canonical single-byte values. -/
def pushnumValue (op : Nat) : Option Nat :=
  if op = 0x4f then some 0x81
  else if op = 0x51 then some 1
  else if op = 0x52 then some 2
  else if op = 0x53 then some 3
  else if op = 0x54 then some 4
  else if op = 0x55 then some 5
  else if op = 0x56 then some 6
  else if op = 0x57 then some 7
  else if op = 0x58 then some 8
  else if op = 0x59 then some 9
  else if op = 0x5a then some 10
  else if op = 0x5b then some 11
  else if op = 0x5c then some 12
  else if op = 0x5d then some 13
  else if op = 0x5e then some 14
  else if op = 0x5f then some 15
  else if op = 0x60 then some 16
  else none

/-- Embeds the loop of from_instructions in src/envelope.rs: consumes
instructions until OP_ENDIF (success), a disallowed opcode (failure), or
end of stream (failure), accumulating pushed chunks; returns the parse
outcome together with the instructions left unconsumed. -/
def fromInstructionsGo : List Instruction → Envelope → Option Envelope × List Instruction
  | [], _ => (none, [])
  | Instruction.Op op :: rest, payload =>
    if op = OP_ENDIF then (some payload, rest)
    else
      match pushnumValue op with
      | some b => fromInstructionsGo rest (payload ++ [[b]])
      | none => (none, rest)
  | Instruction.PushBytes bytes :: rest, payload =>
    fromInstructionsGo rest (payload ++ [bytes])

/-- Embeds from_instructions in src/envelope.rs: requires the next
instruction to be OP_IF (leaving the stream untouched otherwise, as the
peeking accept helper does), then consumes the envelope body. -/
def fromInstructions : List Instruction → Option Envelope × List Instruction
  | Instruction.Op op :: rest =>
    if op = OP_IF then fromInstructionsGo rest []
    else (none, Instruction.Op op :: rest)
  | other => (none, other)

/-- Embeds the scanning loop of from_script in src/envelope.rs: on every
empty data push, attempts to parse one envelope from the following
instructions, continuing after whatever the attempt consumed.  The fuel
bounds the iteration count; fuel = length of the stream always suffices
because every iteration consumes at least one instruction. -/
def fromScriptGo : Nat → List Instruction → List Envelope
  | _, [] => []
  | 0, _ :: _ => []
  | fuel + 1, instr :: rest =>
    if instr = Instruction.PushBytes [] then
      match fromInstructions rest with
      | (some envelope, rest') => envelope :: fromScriptGo fuel rest'
      | (none, rest') => fromScriptGo fuel rest'
    else fromScriptGo fuel rest

/-- Embeds from_script in src/envelope.rs. -/
def fromScript (script : List Instruction) : List Envelope :=
  fromScriptGo script.length script

/-- The maximum single script push size from the external bitcoin
library (MAX_SCRIPT_ELEMENT_SIZE). -/
def MAX_SCRIPT_ELEMENT_SIZE : Nat := 520

/-- Embeds the chunks iterator used by append_to_builder in
src/envelope.rs: splits a byte string into consecutive pieces of at most
520 bytes; an empty byte string yields no pieces.  The fuel bounds the
iteration count; fuel = length always suffices. -/
def chunksGo : Nat → List Nat → List (List Nat)
  | _, [] => []
  | 0, l => [l]
  | fuel + 1, l =>
    l.take MAX_SCRIPT_ELEMENT_SIZE :: chunksGo fuel (l.drop MAX_SCRIPT_ELEMENT_SIZE)

/-- The 520-byte chunking of a byte string, as produced by the chunks
call in append_to_builder of src/envelope.rs. -/
def chunks520 (bytes : List Nat) : List (List Nat) :=
  chunksGo bytes.length bytes

/-- Embeds append_to_builder from src/envelope.rs: emits OP_FALSE (the
empty push) and OP_IF, then every chunk split into pushes of at most 520
bytes, then OP_ENDIF, appended to the builder. -/
def appendToBuilder (envelope : Envelope) (builder : List Instruction) : List Instruction :=
  (builder ++ [Instruction.PushBytes [], Instruction.Op OP_IF]
      ++ envelope.flatMap (fun bytes => (chunks520 bytes).map Instruction.PushBytes))
    ++ [Instruction.Op OP_ENDIF]

/-- Embeds append_bytes_to_builder from src/envelope.rs. -/
def appendBytesToBuilder (bytes : List Nat) (builder : List Instruction) : List Instruction :=
  appendToBuilder [bytes] builder

theorem chunksGo_flatten (fuel : Nat) :
    ∀ l : List Nat, l.length ≤ fuel → (chunksGo fuel l).flatten = l := by
  induction fuel with
  | zero =>
    intro l hl
    have : l = [] := List.length_eq_zero.mp (Nat.le_zero.mp hl)
    subst this
    rfl
  | succ f ih =>
    intro l hl
    cases l with
    | nil => rfl
    | cons x xs =>
      show (List.take MAX_SCRIPT_ELEMENT_SIZE (x :: xs)
          :: chunksGo f (List.drop MAX_SCRIPT_ELEMENT_SIZE (x :: xs))).flatten = x :: xs
      rw [List.flatten_cons]
      have hlen : (List.drop MAX_SCRIPT_ELEMENT_SIZE (x :: xs)).length ≤ f := by
        rw [List.length_drop]
        simp only [List.length_cons, MAX_SCRIPT_ELEMENT_SIZE] at hl ⊢
        omega
      rw [ih _ hlen]
      exact List.take_append_drop _ _

theorem chunks520_flatten (l : List Nat) : (chunks520 l).flatten = l :=
  chunksGo_flatten l.length l (Nat.le_refl _)

theorem chunks520_eq_self (l : List Nat) (h1 : l ≠ []) (h2 : l.length ≤ 520) :
    chunks520 l = [l] := by
  obtain ⟨x, xs, rfl⟩ := List.exists_cons_of_ne_nil h1
  show chunksGo (x :: xs).length (x :: xs) = [x :: xs]
  rw [show (x :: xs).length = xs.length + 1 from rfl]
  show List.take MAX_SCRIPT_ELEMENT_SIZE (x :: xs)
      :: chunksGo xs.length (List.drop MAX_SCRIPT_ELEMENT_SIZE (x :: xs)) = [x :: xs]
  have ht : List.take MAX_SCRIPT_ELEMENT_SIZE (x :: xs) = x :: xs :=
    List.take_of_length_le (by simpa [MAX_SCRIPT_ELEMENT_SIZE] using h2)
  have hd : List.drop MAX_SCRIPT_ELEMENT_SIZE (x :: xs) = [] :=
    List.drop_eq_nil_of_le (by simpa [MAX_SCRIPT_ELEMENT_SIZE] using h2)
  rw [ht, hd]
  cases xs.length <;> rfl

theorem flatMap_chunks520_flatten (env : Envelope) :
    (env.flatMap chunks520).flatten = env.flatten := by
  induction env with
  | nil => rfl
  | cons c cs ih =>
    rw [List.flatMap_cons, List.flatten_append, ih, chunks520_flatten, List.flatten_cons]

theorem flatMap_chunks520_id (env : Envelope)
    (h : ∀ c ∈ env, c ≠ [] ∧ c.length ≤ 520) : env.flatMap chunks520 = env := by
  induction env with
  | nil => rfl
  | cons c cs ih =>
    obtain ⟨h1, h2⟩ := h c (List.mem_cons_self c cs)
    rw [List.flatMap_cons, chunks520_eq_self c h1 h2,
      ih (fun c' hc' => h c' (List.mem_cons_of_mem c hc'))]
    rfl

theorem fromInstructionsGo_pushes (cs : List (List Nat)) :
    ∀ acc : Envelope,
      fromInstructionsGo (cs.map Instruction.PushBytes ++ [Instruction.Op OP_ENDIF]) acc
        = (some (acc ++ cs), []) := by
  induction cs with
  | nil =>
    intro acc
    simp [fromInstructionsGo]
  | cons c cs ih =>
    intro acc
    rw [List.map_cons, List.cons_append]
    show fromInstructionsGo (cs.map Instruction.PushBytes ++ [Instruction.Op OP_ENDIF])
        (acc ++ [c]) = (some (acc ++ c :: cs), [])
    rw [ih (acc ++ [c])]
    simp

/-- The script built by append_to_builder over an empty builder is parsed
back as precisely one envelope, the 520-byte sub-chunk split of the input
chunks. -/
theorem fromScript_appendToBuilder (env : Envelope) :
    fromScript (appendToBuilder env []) = [env.flatMap chunks520] := by
  have hmap : env.flatMap (fun bytes => (chunks520 bytes).map Instruction.PushBytes)
      = (env.flatMap chunks520).map Instruction.PushBytes := by
    induction env with
    | nil => rfl
    | cons c cs ih => simp [List.flatMap_cons, ih]
  unfold fromScript appendToBuilder
  rw [hmap]
  set cs : List (List Nat) := env.flatMap chunks520 with hcs
  have hscript : (([] ++ [Instruction.PushBytes [], Instruction.Op OP_IF]
        ++ cs.map Instruction.PushBytes) ++ [Instruction.Op OP_ENDIF])
      = Instruction.PushBytes []
        :: (Instruction.Op OP_IF
          :: (cs.map Instruction.PushBytes ++ [Instruction.Op OP_ENDIF])) := by
    simp
  rw [hscript]
  have hlen : (Instruction.PushBytes []
        :: (Instruction.Op OP_IF
          :: (cs.map Instruction.PushBytes ++ [Instruction.Op OP_ENDIF]))).length
      = cs.length + 3 := by
    simp
  rw [hlen]
  rw [show cs.length + 3 = (cs.length + 2) + 1 from rfl]
  conv_lhs => rw [fromScriptGo]
  rw [if_pos rfl]
  have hfi : fromInstructions (Instruction.Op OP_IF
        :: (cs.map Instruction.PushBytes ++ [Instruction.Op OP_ENDIF]))
      = (some cs, []) := by
    rw [fromInstructions]
    rw [if_pos rfl, fromInstructionsGo_pushes cs []]
    rfl
  rw [hfi]
  rfl

/-- C4, counterexample: a single 521-byte chunk is split across two pushes
by append_to_builder, and from_script returns those two pushes as two
chunks; the extracted envelope is not equal to the original one-chunk
sequence. -/
theorem claim_C4_counterexample :
    fromScript (appendToBuilder [List.replicate 521 7] [])
      = [[List.replicate 520 7, [7]]] ∧
    ([[List.replicate 520 7, [7]]] : List Envelope) ≠ [[List.replicate 521 7]] := by
  constructor
  · rw [fromScript_appendToBuilder]
    decide
  · decide

/-- C4, amended: for every chunk sequence, from_script of the built script
yields exactly one envelope, namely the 520-byte sub-chunk split of the
chunks (with empty chunks dropped); its concatenation equals the
concatenation of the original chunks, and it equals the original chunk
sequence when every chunk is non-empty and at most 520 bytes. -/
theorem claim_C4_roundtrip (env : Envelope) :
    fromScript (appendToBuilder env []) = [env.flatMap chunks520] ∧
    (env.flatMap chunks520).flatten = env.flatten ∧
    ((∀ c ∈ env, c ≠ [] ∧ c.length ≤ 520) → env.flatMap chunks520 = env) :=
  ⟨fromScript_appendToBuilder env, flatMap_chunks520_flatten env, flatMap_chunks520_id env⟩

/-- C4, witness: the round trip evaluated on the concrete chunk sequence
with chunks [1] and [2, 3]. -/
theorem claim_C4_witness :
    fromScript (appendToBuilder [[1], [2, 3]] []) = [[[1], [2, 3]]] := by
  have h := claim_C4_roundtrip [[1], [2, 3]]
  rw [h.2.2 (by decide)] at h
  exact h.1

/-- C5: an envelope containing a disallowed opcode (OP_IF) before its
OP_ENDIF yields zero envelopes; an envelope that never reaches OP_ENDIF
yields zero envelopes; and opcodes outside the envelope (a leading OP_DUP
and a trailing OP_EQUALVERIFY) do not affect extraction of the enclosed
envelope. -/
theorem claim_C5_rejection :
    fromScript [Instruction.PushBytes [], Instruction.Op OP_IF,
      Instruction.PushBytes [1], Instruction.Op OP_IF, Instruction.Op OP_ENDIF] = [] ∧
    fromScript [Instruction.PushBytes [], Instruction.Op OP_IF,
      Instruction.PushBytes [100, 97, 116, 97]] = [] ∧
    fromScript [Instruction.Op OP_DUP, Instruction.PushBytes [], Instruction.Op OP_IF,
      Instruction.PushBytes [5, 6], Instruction.Op OP_ENDIF,
      Instruction.Op OP_EQUALVERIFY] = [[[5, 6]]] ∧
    fromScript [Instruction.PushBytes [], Instruction.Op OP_IF,
      Instruction.PushBytes [5, 6], Instruction.Op OP_ENDIF] = [[[5, 6]]] := by
  decide

/-! ### Embedding scanner (src/lib.rs)

Transactions are modelled through the collaborator shapes the scanner
consumes: each output exposes a script (as instructions for envelope
scanning and as raw bytes for OP_RETURN slicing) and an OP_RETURN
predicate; each input exposes a witness with a stack length, an optional
taproot leaf script tagged with whether its version is tapscript, an
optional derived witness script, and an optional taproot annex. -/

/-- Embeds ScriptType from src/lib.rs. -/
inductive ScriptType where
  | legacy
  | tapscript
  deriving DecidableEq

/-- Embeds EmbeddingLocation from src/lib.rs. -/
inductive EmbeddingLocation where
  | opReturn (output : Nat)
  | taprootAnnex (input : Nat)
  | witnessEnvelope (input index : Nat) (pushes : List Nat) (scriptType : ScriptType)
  | bareEnvelope (output index : Nat) (pushes : List Nat)
  deriving DecidableEq

/-- Embeds the Embedding struct from src/lib.rs; the txid is an opaque
byte string computed externally. -/
structure Embedding where
  bytes : List Nat
  txid : List Nat
  location : EmbeddingLocation
  deriving DecidableEq

/-- The witness collaborator shape consumed by from_transaction in
src/lib.rs: the taproot leaf script is paired with whether its leaf
version is tapscript. -/
structure WitnessData where
  taprootLeafScript : Option (Bool × List Instruction)
  taprootAnnex : Option (List Nat)
  witnessScript : Option (List Instruction)
  stackLen : Nat
  deriving DecidableEq

/-- The input collaborator shape consumed by from_transaction. -/
structure TxIn where
  witness : WitnessData
  deriving DecidableEq

/-- The output collaborator shape consumed by from_transaction. -/
structure TxOut where
  scriptPubkey : List Instruction
  scriptBytes : List Nat
  isOpReturn : Bool
  deriving DecidableEq

/-- The transaction collaborator shape consumed by from_transaction; the
txid stands for compute_txid, which is external hashing. -/
structure Transaction where
  input : List TxIn
  output : List TxOut
  txid : List Nat
  deriving DecidableEq

/-- The initial byte of a data-carrying taproot annex (src/lib.rs). -/
def TAPROOT_ANNEX_DATA_TAG : Nat := 0

/-- Embeds the witness-script selection of from_transaction in src/lib.rs
lines 218-241: a tapscript leaf wins; otherwise, with no annex and more
than one stack element, the derived witness script is used as Legacy. -/
def selectWitnessScript (w : WitnessData) : Option (List Instruction × ScriptType) :=
  match w.taprootLeafScript with
  | some (isTapscript, s) =>
    if isTapscript then some (s, ScriptType.tapscript)
    else
      if w.taprootAnnex = none ∧ 1 < w.stackLen then
        match w.witnessScript with
        | some ws => some (ws, ScriptType.legacy)
        | none => none
      else none
  | none =>
    if w.taprootAnnex = none ∧ 1 < w.stackLen then
      match w.witnessScript with
      | some ws => some (ws, ScriptType.legacy)
      | none => none
    else none

/-- Embeds the per-output body of from_transaction (src/lib.rs lines
181-215): an OP_RETURN output yields its script bytes after the opcode
byte; any other output is scanned for bare envelopes, each becoming one
embedding whose bytes are the chunk concatenation and whose pushes are
the chunk lengths. -/
def outputEmbedding (txid : List Nat) (p : Nat × TxOut) : List Embedding :=
  if p.2.isOpReturn then
    [⟨p.2.scriptBytes.drop 1, txid, .opReturn p.1⟩]
  else
    (fromScript p.2.scriptPubkey).enum.map (fun q =>
      ⟨q.2.flatten, txid, .bareEnvelope p.1 q.1 (q.2.map (fun c => c.length))⟩)

/-- Embeds the per-input witness body of from_transaction (src/lib.rs
lines 218-267). -/
def witnessEmbedding (txid : List Nat) (p : Nat × TxIn) : List Embedding :=
  match selectWitnessScript p.2.witness with
  | none => []
  | some (s, st) =>
    (fromScript s).enum.map (fun q =>
      ⟨q.2.flatten, txid, .witnessEnvelope p.1 q.1 (q.2.map (fun c => c.length)) st⟩)

/-- Embeds the per-input annex body of from_transaction (src/lib.rs lines
270-282): an annex longer than two bytes whose second byte is the data
tag yields everything from the third byte onward. -/
def annexEmbedding (txid : List Nat) (p : Nat × TxIn) : List Embedding :=
  match p.2.witness.taprootAnnex with
  | some annex =>
    if 2 < annex.length ∧ annex.getD 1 1 = TAPROOT_ANNEX_DATA_TAG then
      [⟨annex.drop 2, txid, .taprootAnnex p.1⟩]
    else []
  | none => []

/-- Embeds Embedding::from_transaction from src/lib.rs: the outputs loop,
then the witness loop, then the annex loop, in that order. -/
def Embedding.fromTransaction (tx : Transaction) : List Embedding :=
  tx.output.enum.flatMap (outputEmbedding tx.txid)
    ++ tx.input.enum.flatMap (witnessEmbedding tx.txid)
    ++ tx.input.enum.flatMap (annexEmbedding tx.txid)

/-- The sort key of an embedding location: carrier category (outputs
first, then witness envelopes, then annexes), output or input index, then
envelope index within the script. -/
def locKey : EmbeddingLocation → Nat × Nat × Nat
  | .opReturn o => (0, o, 0)
  | .bareEnvelope o i _ => (0, o, i)
  | .witnessEnvelope inp i _ _ => (1, inp, i)
  | .taprootAnnex inp => (2, inp, 0)

/-- Strict lexicographic order on location sort keys. -/
def keyLT (a b : Nat × Nat × Nat) : Prop :=
  a.1 < b.1 ∨ (a.1 = b.1 ∧ (a.2.1 < b.2.1 ∨ (a.2.1 = b.2.1 ∧ a.2.2 < b.2.2)))

instance (a b : Nat × Nat × Nat) : Decidable (keyLT a b) := by
  unfold keyLT
  infer_instance

theorem pairwise_flatMap_enumFrom {α β : Type} (R : β → β → Prop)
    (f : Nat → α → List β) (l : List α)
    (hwithin : ∀ i a, List.Pairwise R (f i a))
    (hacross : ∀ i a j b x y, i < j → x ∈ f i a → y ∈ f j b → R x y) :
    ∀ n, List.Pairwise R ((l.enumFrom n).flatMap (fun p => f p.1 p.2)) := by
  induction l with
  | nil => intro n; simp
  | cons a l ih =>
    intro n
    rw [List.enumFrom_cons, List.flatMap_cons, List.pairwise_append]
    refine ⟨hwithin n a, ih (n + 1), ?_⟩
    intro x hx y hy
    obtain ⟨p, hp, hyp⟩ := List.mem_flatMap.mp hy
    exact hacross n a p.1 p.2 x y
      (lt_of_lt_of_le (Nat.lt_succ_self n) (List.le_fst_of_mem_enumFrom hp)) hx hyp

theorem pairwise_fst_lt_enumFrom {α : Type} (l : List α) :
    ∀ n, List.Pairwise (fun p q : Nat × α => p.1 < q.1) (l.enumFrom n) := by
  induction l with
  | nil => intro n; simp
  | cons a l ih =>
    intro n
    rw [List.enumFrom_cons]
    refine List.Pairwise.cons ?_ (ih (n + 1))
    intro q hq
    exact lt_of_lt_of_le (Nat.lt_succ_self n) (List.le_fst_of_mem_enumFrom hq)

theorem outputEmbedding_key (txid : List Nat) (p : Nat × TxOut) (e : Embedding)
    (he : e ∈ outputEmbedding txid p) :
    (locKey e.location).1 = 0 ∧ (locKey e.location).2.1 = p.1 := by
  unfold outputEmbedding at he
  split at he
  · simp only [List.mem_singleton] at he
    subst he
    simp [locKey]
  · obtain ⟨q, hq, rfl⟩ := List.mem_map.mp he
    simp [locKey]

theorem witnessEmbedding_key (txid : List Nat) (p : Nat × TxIn) (e : Embedding)
    (he : e ∈ witnessEmbedding txid p) :
    (locKey e.location).1 = 1 ∧ (locKey e.location).2.1 = p.1 := by
  unfold witnessEmbedding at he
  split at he
  · simp at he
  · obtain ⟨q, hq, rfl⟩ := List.mem_map.mp he
    simp [locKey]

theorem annexEmbedding_key (txid : List Nat) (p : Nat × TxIn) (e : Embedding)
    (he : e ∈ annexEmbedding txid p) :
    (locKey e.location).1 = 2 ∧ (locKey e.location).2.1 = p.1 := by
  unfold annexEmbedding at he
  split at he
  · split at he
    · simp only [List.mem_singleton] at he
      subst he
      simp [locKey]
    · simp at he
  · simp at he

theorem outputEmbedding_pairwise (txid : List Nat) (p : Nat × TxOut) :
    List.Pairwise (fun a b : Embedding => keyLT (locKey a.location) (locKey b.location))
      (outputEmbedding txid p) := by
  unfold outputEmbedding
  split
  · simp
  · rw [List.pairwise_map]
    refine (pairwise_fst_lt_enumFrom _ 0).imp ?_
    intro q q' h
    exact Or.inr ⟨rfl, Or.inr ⟨rfl, h⟩⟩

theorem witnessEmbedding_pairwise (txid : List Nat) (p : Nat × TxIn) :
    List.Pairwise (fun a b : Embedding => keyLT (locKey a.location) (locKey b.location))
      (witnessEmbedding txid p) := by
  unfold witnessEmbedding
  split
  · simp
  · rw [List.pairwise_map]
    refine (pairwise_fst_lt_enumFrom _ 0).imp ?_
    intro q q' h
    exact Or.inr ⟨rfl, Or.inr ⟨rfl, h⟩⟩

theorem annexEmbedding_pairwise (txid : List Nat) (p : Nat × TxIn) :
    List.Pairwise (fun a b : Embedding => keyLT (locKey a.location) (locKey b.location))
      (annexEmbedding txid p) := by
  unfold annexEmbedding
  split
  · split
    · simp
    · simp
  · simp

/-- The scanner's output is strictly sorted by carrier category, then
output or input index, then envelope index. -/
theorem fromTransaction_pairwise (tx : Transaction) :
    List.Pairwise (fun a b : Embedding => keyLT (locKey a.location) (locKey b.location))
      (Embedding.fromTransaction tx) := by
  unfold Embedding.fromTransaction
  rw [List.append_assoc, List.pairwise_append, List.pairwise_append]
  refine ⟨?_, ⟨?_, ?_, ?_⟩, ?_⟩
  · exact pairwise_flatMap_enumFrom _ (fun i a => outputEmbedding tx.txid (i, a)) tx.output
      (fun i a => outputEmbedding_pairwise tx.txid (i, a))
      (fun i a j b x y hij hx hy => by
        obtain ⟨_, hx2⟩ := outputEmbedding_key tx.txid (i, a) x hx
        obtain ⟨hy1, hy2⟩ := outputEmbedding_key tx.txid (j, b) y hy
        obtain ⟨hx1, _⟩ := outputEmbedding_key tx.txid (i, a) x hx
        exact Or.inr ⟨by rw [hx1, hy1], Or.inl (by rw [hx2, hy2]; exact hij)⟩) 0
  · exact pairwise_flatMap_enumFrom _ (fun i a => witnessEmbedding tx.txid (i, a)) tx.input
      (fun i a => witnessEmbedding_pairwise tx.txid (i, a))
      (fun i a j b x y hij hx hy => by
        obtain ⟨hx1, hx2⟩ := witnessEmbedding_key tx.txid (i, a) x hx
        obtain ⟨hy1, hy2⟩ := witnessEmbedding_key tx.txid (j, b) y hy
        exact Or.inr ⟨by rw [hx1, hy1], Or.inl (by rw [hx2, hy2]; exact hij)⟩) 0
  · exact pairwise_flatMap_enumFrom _ (fun i a => annexEmbedding tx.txid (i, a)) tx.input
      (fun i a => annexEmbedding_pairwise tx.txid (i, a))
      (fun i a j b x y hij hx hy => by
        obtain ⟨hx1, hx2⟩ := annexEmbedding_key tx.txid (i, a) x hx
        obtain ⟨hy1, hy2⟩ := annexEmbedding_key tx.txid (j, b) y hy
        exact Or.inr ⟨by rw [hx1, hy1], Or.inl (by rw [hx2, hy2]; exact hij)⟩) 0
  · intro x hx y hy
    obtain ⟨p, hp, hxp⟩ := List.mem_flatMap.mp hx
    obtain ⟨q, hq, hyq⟩ := List.mem_flatMap.mp hy
    obtain ⟨hx1, _⟩ := witnessEmbedding_key tx.txid p x hxp
    obtain ⟨hy1, _⟩ := annexEmbedding_key tx.txid q y hyq
    exact Or.inl (by rw [hx1, hy1]; omega)
  · intro x hx y hy
    obtain ⟨p, hp, hxp⟩ := List.mem_flatMap.mp hx
    obtain ⟨hx1, _⟩ := outputEmbedding_key tx.txid p x hxp
    rcases List.mem_append.mp hy with h | h
    · obtain ⟨q, hq, hyq⟩ := List.mem_flatMap.mp h
      obtain ⟨hy1, _⟩ := witnessEmbedding_key tx.txid q y hyq
      exact Or.inl (by rw [hx1, hy1]; omega)
    · obtain ⟨q, hq, hyq⟩ := List.mem_flatMap.mp h
      obtain ⟨hy1, _⟩ := annexEmbedding_key tx.txid q y hyq
      exact Or.inl (by rw [hx1, hy1]; omega)

/-- An embedding reported at a bare-envelope location is sourced from the
envelope at that position of that output's script. -/
theorem mem_fromTransaction_bare (tx : Transaction) (e : Embedding)
    (o i : Nat) (ps : List Nat)
    (he : e ∈ Embedding.fromTransaction tx)
    (hl : e.location = .bareEnvelope o i ps) :
    ∃ txout env, tx.output[o]? = some txout ∧ txout.isOpReturn = false ∧
      (fromScript txout.scriptPubkey)[i]? = some env ∧
      e.bytes = env.flatten ∧ ps = env.map (fun c => c.length) := by
  unfold Embedding.fromTransaction at he
  rcases List.mem_append.mp he with h | h
  rotate_left
  · exfalso
    obtain ⟨p, hp, hep⟩ := List.mem_flatMap.mp h
    obtain ⟨h1, _⟩ := annexEmbedding_key tx.txid p e hep
    rw [hl] at h1
    simp [locKey] at h1
  rcases List.mem_append.mp h with h | h
  rotate_left
  · exfalso
    obtain ⟨p, hp, hep⟩ := List.mem_flatMap.mp h
    obtain ⟨h1, _⟩ := witnessEmbedding_key tx.txid p e hep
    rw [hl] at h1
    simp [locKey] at h1
  obtain ⟨p, hp, hep⟩ := List.mem_flatMap.mp h
  unfold outputEmbedding at hep
  cases hb : p.2.isOpReturn with
  | true =>
    exfalso
    rw [if_pos hb] at hep
    simp only [List.mem_singleton] at hep
    subst hep
    simp at hl
  | false =>
    rw [if_neg (by simp [hb])] at hep
    obtain ⟨q, hq, rfl⟩ := List.mem_map.mp hep
    simp only [EmbeddingLocation.bareEnvelope.injEq] at hl
    obtain ⟨rfl, rfl, rfl⟩ := hl
    exact ⟨p.2, q.2, List.mem_enum_iff_getElem?.mp hp, hb,
      List.mem_enum_iff_getElem?.mp hq, rfl, rfl⟩

/-- An embedding reported at a witness-envelope location is sourced from
the envelope at that position of the selected witness script of that
input. -/
theorem mem_fromTransaction_witness (tx : Transaction) (e : Embedding)
    (inp i : Nat) (ps : List Nat) (st : ScriptType)
    (he : e ∈ Embedding.fromTransaction tx)
    (hl : e.location = .witnessEnvelope inp i ps st) :
    ∃ txin s env, tx.input[inp]? = some txin ∧
      selectWitnessScript txin.witness = some (s, st) ∧
      (fromScript s)[i]? = some env ∧
      e.bytes = env.flatten ∧ ps = env.map (fun c => c.length) := by
  unfold Embedding.fromTransaction at he
  rcases List.mem_append.mp he with h | h
  rotate_left
  · exfalso
    obtain ⟨p, hp, hep⟩ := List.mem_flatMap.mp h
    obtain ⟨h1, _⟩ := annexEmbedding_key tx.txid p e hep
    rw [hl] at h1
    simp [locKey] at h1
  rcases List.mem_append.mp h with h | h
  · exfalso
    obtain ⟨p, hp, hep⟩ := List.mem_flatMap.mp h
    obtain ⟨h1, _⟩ := outputEmbedding_key tx.txid p e hep
    rw [hl] at h1
    simp [locKey] at h1
  obtain ⟨p, hp, hep⟩ := List.mem_flatMap.mp h
  unfold witnessEmbedding at hep
  split at hep
  · simp at hep
  · obtain ⟨q, hq, rfl⟩ := List.mem_map.mp hep
    simp only [EmbeddingLocation.witnessEnvelope.injEq] at hl
    obtain ⟨rfl, rfl, rfl, rfl⟩ := hl
    refine ⟨p.2, _, q.2, List.mem_enum_iff_getElem?.mp hp, by assumption,
      List.mem_enum_iff_getElem?.mp hq, rfl, rfl⟩

/-- C6: the scanner's result is strictly sorted by the key (carrier
category with outputs first, then witness envelopes, then annexes; then
output or input index; then envelope index), and every envelope-carried
embedding's index field records its encounter position in its script:
the embedding at index i is the i-th envelope extracted from the output
script or selected witness script. -/
theorem claim_C6_ordering (tx : Transaction) :
    List.Pairwise (fun a b : Embedding => keyLT (locKey a.location) (locKey b.location))
      (Embedding.fromTransaction tx) ∧
    (∀ e ∈ Embedding.fromTransaction tx, ∀ o i ps,
      e.location = .bareEnvelope o i ps →
      ∃ txout env, tx.output[o]? = some txout ∧ txout.isOpReturn = false ∧
        (fromScript txout.scriptPubkey)[i]? = some env ∧
        e.bytes = env.flatten ∧ ps = env.map (fun c => c.length)) ∧
    (∀ e ∈ Embedding.fromTransaction tx, ∀ inp i ps st,
      e.location = .witnessEnvelope inp i ps st →
      ∃ txin s env, tx.input[inp]? = some txin ∧
        selectWitnessScript txin.witness = some (s, st) ∧
        (fromScript s)[i]? = some env ∧
        e.bytes = env.flatten ∧ ps = env.map (fun c => c.length)) :=
  ⟨fromTransaction_pairwise tx,
    fun e he o i ps hl => mem_fromTransaction_bare tx e o i ps he hl,
    fun e he inp i ps st hl => mem_fromTransaction_witness tx e inp i ps st he hl⟩

/-- A concrete transaction with one bare-envelope output, used to witness
the scanner claims. -/
def txExampleA : Transaction :=
  ⟨[], [⟨appendToBuilder [[1, 2]] [], [], false⟩], [17]⟩

/-- A concrete transaction with one tapscript witness envelope, used to
witness the scanner claims. -/
def txExampleB : Transaction :=
  ⟨[⟨⟨some (true, appendToBuilder [[3, 4], [5]] []), none, none, 1⟩⟩], [], [3]⟩

/-- C6, witness: the ordering and index-recording facts evaluated on the
concrete transaction with one bare-envelope output. -/
theorem claim_C6_witness :
    List.Pairwise (fun a b : Embedding => keyLT (locKey a.location) (locKey b.location))
      (Embedding.fromTransaction txExampleA) ∧
    (∃ txout env, txExampleA.output[0]? = some txout ∧ txout.isOpReturn = false ∧
      (fromScript txout.scriptPubkey)[0]? = some env ∧
      ([1, 2] : List Nat) = env.flatten ∧ ([2] : List Nat) = env.map (fun c => c.length)) :=
  ⟨(claim_C6_ordering txExampleA).1,
    (claim_C6_ordering txExampleA).2.1 ⟨[1, 2], [17], .bareEnvelope 0 0 [2]⟩
      (by decide) 0 0 [2] rfl⟩

/-- C10: for every embedding at a bare-envelope or witness-envelope
location, the envelope actually extracted at that position of that
output script or selected witness script is such that the pushes list is
the list of its chunks' lengths in order, the bytes are the in-order
concatenation of its chunks, and consequently the sum of the pushes
equals the byte length. -/
theorem claim_C10_pushes (tx : Transaction) (e : Embedding)
    (he : e ∈ Embedding.fromTransaction tx) :
    (∀ o i ps, e.location = .bareEnvelope o i ps →
      ∃ txout env, tx.output[o]? = some txout ∧
        (fromScript txout.scriptPubkey)[i]? = some env ∧
        ps = env.map (fun c => c.length) ∧ e.bytes = env.flatten ∧
        ps.sum = e.bytes.length) ∧
    (∀ inp i ps st, e.location = .witnessEnvelope inp i ps st →
      ∃ txin s env, tx.input[inp]? = some txin ∧
        selectWitnessScript txin.witness = some (s, st) ∧
        (fromScript s)[i]? = some env ∧
        ps = env.map (fun c => c.length) ∧ e.bytes = env.flatten ∧
        ps.sum = e.bytes.length) := by
  constructor
  · intro o i ps hl
    obtain ⟨txout, env, h1, hop, h2, hb, hp⟩ :=
      mem_fromTransaction_bare tx e o i ps he hl
    refine ⟨txout, env, h1, h2, hp, hb, ?_⟩
    rw [hb, hp]
    exact (List.length_flatten env).symm
  · intro inp i ps st hl
    obtain ⟨txin, s, env, h1, h2, h3, hb, hp⟩ :=
      mem_fromTransaction_witness tx e inp i ps st he hl
    refine ⟨txin, s, env, h1, h2, h3, hp, hb, ?_⟩
    rw [hb, hp]
    exact (List.length_flatten env).symm

/-- C10, witness: the pushes invariant evaluated on the concrete
transaction with one tapscript witness envelope of chunks [3, 4] and
[5]. -/
theorem claim_C10_witness :
    ∃ txin s env, txExampleB.input[0]? = some txin ∧
      selectWitnessScript txin.witness = some (s, ScriptType.tapscript) ∧
      (fromScript s)[0]? = some env ∧
      ([2, 1] : List Nat) = env.map (fun c => c.length) ∧
      ([3, 4, 5] : List Nat) = env.flatten ∧
      ([2, 1] : List Nat).sum = ([3, 4, 5] : List Nat).length :=
  (claim_C10_pushes txExampleB ⟨[3, 4, 5], [3], .witnessEnvelope 0 0 [2, 1] .tapscript⟩
    (by decide)).2 0 0 [2, 1] .tapscript rfl

/-! ### Embedding identifier (src/lib.rs, Display and FromStr for
EmbeddingId)

Strings are modelled as lists of characters.  The decimal rendering and
parsing of usize and the display and parse of the external transaction id
type are collaborator functionality, modelled from the spec; the id
layout, the colon split, and the validation order are from the source. -/

/-- Decimal digit character, for digits below 10. -/
def digitChar (d : Nat) : Char := Char.ofNat (48 + d)

/-- Little-endian decimal digits of a positive number; the fuel bounds the
iteration count and fuel = n always suffices. -/
def natToCharsGo : Nat → Nat → List Char
  | _, 0 => []
  | 0, _ + 1 => []
  | fuel + 1, n + 1 => digitChar ((n + 1) % 10) :: natToCharsGo fuel ((n + 1) / 10)

/-- Modelled from the spec: the standard decimal rendering of an unsigned
index, as the Display implementation in src/lib.rs produces through the
language runtime. -/
def natToChars (n : Nat) : List Char :=
  if n = 0 then ['0'] else (natToCharsGo n n).reverse

/-- Modelled from the spec: parsing a non-negative integer, as
str::parse of usize does on the digit strings this codec emits: at least
one character, all decimal digits. -/
def charsToNat (l : List Char) : Option Nat :=
  if l = [] then none
  else if l.all (fun c => c.isDigit) then
    some (l.foldl (fun a c => 10 * a + (c.toNat - 48)) 0)
  else none

/-- Hexadecimal digit character (lowercase), for digits below 16. -/
def hexDigitChar (d : Nat) : Char :=
  Char.ofNat (if d < 10 then 48 + d else 87 + d)

/-- Value of a hexadecimal digit character. -/
def hexDigitVal (c : Char) : Option Nat :=
  if 48 ≤ c.toNat ∧ c.toNat ≤ 57 then some (c.toNat - 48)
  else if 97 ≤ c.toNat ∧ c.toNat ≤ 102 then some (c.toNat - 87)
  else none

/-- The two hex characters of one byte. -/
def byteToHexChars (b : Nat) : List Char :=
  [hexDigitChar (b / 16), hexDigitChar (b % 16)]

/-- Modelled from the spec: the display of the external transaction id
type, a 64-character lowercase hex rendering of its 32 bytes. -/
def txidToChars (t : List Nat) : List Char :=
  t.flatMap byteToHexChars

/-- Parses consecutive pairs of hex characters into bytes. -/
def hexPairsToBytes : List Char → Option (List Nat)
  | [] => some []
  | [_] => none
  | c1 :: c2 :: rest =>
    match hexDigitVal c1, hexDigitVal c2, hexPairsToBytes rest with
    | some hi, some lo, some bs => some ((16 * hi + lo) :: bs)
    | _, _, _ => none

/-- Modelled from the spec: the parse-from-string of the external
transaction id type, accepting exactly 64 hex characters. -/
def txidFromChars (l : List Char) : Option (List Nat) :=
  if l.length = 64 then hexPairsToBytes l else none

/-- Splitting a character list on the colon separator, as the split call
in from_str of src/lib.rs does; always returns at least one part. -/
def splitOnColon : List Char → List (List Char)
  | [] => [[]]
  | c :: rest =>
    if c = ':' then [] :: splitOnColon rest
    else
      match splitOnColon rest with
      | p :: ps => (c :: p) :: ps
      | [] => [[c]]

theorem digitChar_toNat (d : Nat) (h : d < 10) : (digitChar d).toNat = 48 + d := by
  interval_cases d <;> decide

theorem digitChar_isDigit (d : Nat) (h : d < 10) : (digitChar d).isDigit = true := by
  interval_cases d <;> decide

theorem digitChar_ne_colon (d : Nat) (h : d < 10) : digitChar d ≠ ':' := by
  interval_cases d <;> decide

theorem natToCharsGo_mem (fuel : Nat) :
    ∀ n c, c ∈ natToCharsGo fuel n → ∃ d, d < 10 ∧ c = digitChar d := by
  induction fuel with
  | zero =>
    intro n c hc
    cases n <;> simp [natToCharsGo] at hc
  | succ f ih =>
    intro n c hc
    cases n with
    | zero => simp [natToCharsGo] at hc
    | succ k =>
      rw [natToCharsGo] at hc
      rcases List.mem_cons.mp hc with h | h
      · exact ⟨(k + 1) % 10, Nat.mod_lt _ (by omega), h⟩
      · exact ih _ c h

theorem foldl_natToCharsGo (fuel : Nat) :
    ∀ n a, n ≤ fuel →
      (natToCharsGo fuel n).reverse.foldl (fun a c => 10 * a + (c.toNat - 48)) a
        = a * 10 ^ (natToCharsGo fuel n).length + n := by
  induction fuel with
  | zero =>
    intro n a h
    interval_cases n
    simp [natToCharsGo]
  | succ f ih =>
    intro n a h
    cases n with
    | zero => simp [natToCharsGo]
    | succ k =>
      rw [natToCharsGo, List.reverse_cons, List.foldl_append,
        ih ((k + 1) / 10) a (by omega)]
      rw [List.length_cons]
      simp only [List.foldl_cons, List.foldl_nil]
      rw [digitChar_toNat _ (Nat.mod_lt _ (by omega))]
      rw [pow_succ]
      have hdm := Nat.div_add_mod (k + 1) 10
      ring_nf
      omega

theorem natToCharsGo_ne_nil (n : Nat) (h : n ≠ 0) : natToCharsGo n n ≠ [] := by
  cases n with
  | zero => omega
  | succ k => rw [natToCharsGo]; simp

theorem charsToNat_natToChars (n : Nat) : charsToNat (natToChars n) = some n := by
  by_cases h : n = 0
  · subst h
    decide
  · unfold natToChars
    rw [if_neg h]
    unfold charsToNat
    rw [if_neg (by simpa using natToCharsGo_ne_nil n h)]
    have hall : ((natToCharsGo n n).reverse.all fun c => c.isDigit) = true := by
      rw [List.all_eq_true]
      intro c hc
      obtain ⟨d, hd, rfl⟩ := natToCharsGo_mem n n c (List.mem_reverse.mp hc)
      exact digitChar_isDigit d hd
    rw [if_pos hall]
    rw [foldl_natToCharsGo n n 0 (Nat.le_refl n)]
    simp

theorem natToChars_ne_colon (n : Nat) : ∀ c ∈ natToChars n, c ≠ ':' := by
  intro c hc
  unfold natToChars at hc
  split at hc
  · simp at hc
    subst hc
    decide
  · obtain ⟨d, hd, rfl⟩ := natToCharsGo_mem n n c (List.mem_reverse.mp hc)
    exact digitChar_ne_colon d hd

theorem hexDigitVal_hexDigitChar (d : Nat) (h : d < 16) :
    hexDigitVal (hexDigitChar d) = some d := by
  interval_cases d <;> decide

theorem hexDigitChar_ne_colon (d : Nat) (h : d < 16) : hexDigitChar d ≠ ':' := by
  interval_cases d <;> decide

theorem hexPairsToBytes_flatMap (bs : List Nat) (h : ∀ b ∈ bs, b < 256) :
    hexPairsToBytes (bs.flatMap byteToHexChars) = some bs := by
  induction bs with
  | nil => rfl
  | cons b bs ih =>
    have hb := h b (List.mem_cons_self b bs)
    rw [List.flatMap_cons]
    show hexPairsToBytes (hexDigitChar (b / 16) :: hexDigitChar (b % 16)
      :: bs.flatMap byteToHexChars) = some (b :: bs)
    rw [hexPairsToBytes]
    rw [hexDigitVal_hexDigitChar (b / 16) (by omega),
      hexDigitVal_hexDigitChar (b % 16) (by omega),
      ih (fun x hx => h x (List.mem_cons_of_mem b hx))]
    show some ((16 * (b / 16) + b % 16) :: bs) = some (b :: bs)
    have : 16 * (b / 16) + b % 16 = b := by omega
    rw [this]

theorem txidToChars_length (t : List Nat) : (txidToChars t).length = 2 * t.length := by
  unfold txidToChars
  induction t with
  | nil => rfl
  | cons b bs ih =>
    rw [List.flatMap_cons, List.length_append, ih]
    simp [byteToHexChars]
    omega

theorem txidFromChars_txidToChars (t : List Nat) (hlen : t.length = 32)
    (hb : ∀ b ∈ t, b < 256) : txidFromChars (txidToChars t) = some t := by
  unfold txidFromChars
  rw [if_pos (by rw [txidToChars_length, hlen])]
  exact hexPairsToBytes_flatMap t hb

theorem txidToChars_ne_colon (t : List Nat) (hb : ∀ b ∈ t, b < 256) :
    ∀ c ∈ txidToChars t, c ≠ ':' := by
  intro c hc
  obtain ⟨b, hbm, hcb⟩ := List.mem_flatMap.mp hc
  have h256 := hb b hbm
  unfold byteToHexChars at hcb
  rcases List.mem_cons.mp hcb with h | h
  · subst h
    exact hexDigitChar_ne_colon _ (by omega)
  · simp only [List.mem_singleton] at h
    subst h
    exact hexDigitChar_ne_colon _ (by omega)

theorem splitOnColon_nocolon (l : List Char) (h : ∀ c ∈ l, c ≠ ':') :
    splitOnColon l = [l] := by
  induction l with
  | nil => rfl
  | cons c rest ih =>
    rw [splitOnColon]
    rw [if_neg (h c (List.mem_cons_self c rest))]
    rw [ih (fun x hx => h x (List.mem_cons_of_mem c hx))]

theorem splitOnColon_append (a : List Char) (r : List Char)
    (h : ∀ c ∈ a, c ≠ ':') :
    splitOnColon (a ++ ':' :: r) = a :: splitOnColon r := by
  induction a with
  | nil =>
    show splitOnColon (':' :: r) = [] :: splitOnColon r
    rw [splitOnColon, if_pos rfl]
  | cons c a ih =>
    show splitOnColon (c :: (a ++ ':' :: r)) = (c :: a) :: splitOnColon r
    rw [splitOnColon]
    rw [if_neg (h c (List.mem_cons_self c a))]
    rw [ih (fun x hx => h x (List.mem_cons_of_mem c hx))]

/-- Embeds EmbeddingType from src/lib.rs. -/
inductive EmbeddingType where
  | opReturn
  | taprootAnnex
  | witnessEnvelope (st : ScriptType)
  | bareEnvelope
  deriving DecidableEq

/-- Embeds the EmbeddingId struct from src/lib.rs (without the private
marker field). -/
structure EmbeddingId where
  txid : List Nat
  embeddingType : EmbeddingType
  index : Nat
  subIndex : Option Nat
  deriving DecidableEq

/-- Embeds EmbeddingIdError from src/lib.rs. -/
inductive EmbeddingIdError where
  | invalidFormat
  | invalidTxid
  | invalidType
  | invalidIndex
  deriving DecidableEq

/-- Embeds the Display implementation for EmbeddingId in src/lib.rs: the
colon-joined txid, type code, index, and, only for envelope types with a
positive sub index, the sub index. -/
def idToChars (id : EmbeddingId) : List Char :=
  match id.embeddingType with
  | .opReturn =>
    txidToChars id.txid ++ ':' :: (['r', 't'] ++ ':' :: natToChars id.index)
  | .taprootAnnex =>
    txidToChars id.txid ++ ':' :: (['t', 'a'] ++ ':' :: natToChars id.index)
  | .witnessEnvelope st =>
    let code := match st with
      | .legacy => ['l', 'e']
      | .tapscript => ['t', 'e']
    match id.subIndex with
    | some si =>
      if 0 < si then
        txidToChars id.txid
          ++ ':' :: (code ++ ':' :: (natToChars id.index ++ ':' :: natToChars si))
      else txidToChars id.txid ++ ':' :: (code ++ ':' :: natToChars id.index)
    | none => txidToChars id.txid ++ ':' :: (code ++ ':' :: natToChars id.index)
  | .bareEnvelope =>
    match id.subIndex with
    | some si =>
      if 0 < si then
        txidToChars id.txid
          ++ ':' :: (['b', 'e'] ++ ':' :: (natToChars id.index ++ ':' :: natToChars si))
      else txidToChars id.txid ++ ':' :: (['b', 'e'] ++ ':' :: natToChars id.index)
    | none => txidToChars id.txid ++ ':' :: (['b', 'e'] ++ ':' :: natToChars id.index)

/-- Embeds the type-code table of from_str in src/lib.rs. -/
def typeFromCode (p : List Char) : Option EmbeddingType :=
  if p = ['r', 't'] then some .opReturn
  else if p = ['b', 'e'] then some .bareEnvelope
  else if p = ['t', 'a'] then some .taprootAnnex
  else if p = ['l', 'e'] then some (.witnessEnvelope .legacy)
  else if p = ['t', 'e'] then some (.witnessEnvelope .tapscript)
  else none

/-- Embeds the body of from_str in src/lib.rs after the split: txid, type
code, index, optional sub index, in the source's validation order,
followed by the sub-index presence check per type (envelope types default
a missing sub index to 0; other types reject a present one). -/
def idFromParts (p0 p1 p2 : List Char) (p3o : Option (List Char)) :
    Except EmbeddingIdError EmbeddingId :=
  match txidFromChars p0 with
  | none => .error .invalidTxid
  | some txid =>
    match typeFromCode p1 with
    | none => .error .invalidType
    | some ety =>
      match charsToNat p2 with
      | none => .error .invalidIndex
      | some index =>
        match p3o with
        | some p3 =>
          match charsToNat p3 with
          | none => .error .invalidIndex
          | some si =>
            match ety with
            | .witnessEnvelope _ => .ok ⟨txid, ety, index, some si⟩
            | .bareEnvelope => .ok ⟨txid, ety, index, some si⟩
            | _ => .error .invalidFormat
        | none =>
          match ety with
          | .witnessEnvelope _ => .ok ⟨txid, ety, index, some 0⟩
          | .bareEnvelope => .ok ⟨txid, ety, index, some 0⟩
          | _ => .ok ⟨txid, ety, index, none⟩

/-- Embeds the FromStr implementation for EmbeddingId in src/lib.rs:
split on colons, require three or four parts, then parse the parts. -/
def idFromChars (l : List Char) : Except EmbeddingIdError EmbeddingId :=
  match splitOnColon l with
  | [p0, p1, p2] => idFromParts p0 p1 p2 none
  | [p0, p1, p2, p3] => idFromParts p0 p1 p2 (some p3)
  | _ => .error .invalidFormat

/-- The sub-index presence invariant per embedding type: absent for
OP_RETURN and taproot annex ids, present for envelope ids. -/
def subPresenceOk (id : EmbeddingId) : Bool :=
  match id.embeddingType with
  | .opReturn => id.subIndex.isNone
  | .taprootAnnex => id.subIndex.isNone
  | .witnessEnvelope _ => id.subIndex.isSome
  | .bareEnvelope => id.subIndex.isSome

theorem idFromChars_split3 (l : List Char) (p0 p1 p2 : List Char)
    (h : splitOnColon l = [p0, p1, p2]) :
    idFromChars l = idFromParts p0 p1 p2 none := by
  unfold idFromChars
  rw [h]

theorem idFromChars_split4 (l : List Char) (p0 p1 p2 p3 : List Char)
    (h : splitOnColon l = [p0, p1, p2, p3]) :
    idFromChars l = idFromParts p0 p1 p2 (some p3) := by
  unfold idFromChars
  rw [h]

theorem split3_parts (p0 p1 p2 : List Char)
    (h0 : ∀ c ∈ p0, c ≠ ':') (h1 : ∀ c ∈ p1, c ≠ ':') (h2 : ∀ c ∈ p2, c ≠ ':') :
    splitOnColon (p0 ++ ':' :: (p1 ++ ':' :: p2)) = [p0, p1, p2] := by
  rw [splitOnColon_append p0 _ h0, splitOnColon_append p1 _ h1,
    splitOnColon_nocolon p2 h2]

theorem split4_parts (p0 p1 p2 p3 : List Char)
    (h0 : ∀ c ∈ p0, c ≠ ':') (h1 : ∀ c ∈ p1, c ≠ ':')
    (h2 : ∀ c ∈ p2, c ≠ ':') (h3 : ∀ c ∈ p3, c ≠ ':') :
    splitOnColon (p0 ++ ':' :: (p1 ++ ':' :: (p2 ++ ':' :: p3)))
      = [p0, p1, p2, p3] := by
  rw [splitOnColon_append p0 _ h0, splitOnColon_append p1 _ h1,
    splitOnColon_append p2 _ h2, splitOnColon_nocolon p3 h3]

/-- C9: for every EmbeddingId whose sub-index presence respects its type
(absent for OP_RETURN and taproot annex, present for bare and witness
envelopes) and whose txid is a well-formed 32-byte id, parsing the
rendered string reproduces the id in all four components; in particular a
sub index of 0 is omitted from the string yet re-parses to 0. -/
theorem claim_C9_roundtrip (id : EmbeddingId)
    (hlen : id.txid.length = 32) (hb : ∀ b ∈ id.txid, b < 256)
    (hsub : subPresenceOk id = true) :
    idFromChars (idToChars id) = .ok id := by
  obtain ⟨txid, ety, index, sub⟩ := id
  simp only at hlen hb hsub
  have htxc : ∀ c ∈ txidToChars txid, c ≠ ':' := txidToChars_ne_colon txid hb
  have htx : txidFromChars (txidToChars txid) = some txid :=
    txidFromChars_txidToChars txid hlen hb
  have hidx : ∀ c ∈ natToChars index, c ≠ ':' := natToChars_ne_colon index
  have hn : charsToNat (natToChars index) = some index := charsToNat_natToChars index
  cases ety with
  | opReturn =>
    have hsn : sub = none := by
      simpa [subPresenceOk, Option.isNone_iff_eq_none] using hsub
    subst hsn
    have he : idToChars ⟨txid, .opReturn, index, none⟩
        = txidToChars txid ++ ':' :: (['r', 't'] ++ ':' :: natToChars index) := rfl
    rw [he, idFromChars_split3 _ _ _ _ (split3_parts _ _ _ htxc (by decide) hidx)]
    simp only [idFromParts, htx, hn,
      show typeFromCode ['r', 't'] = some EmbeddingType.opReturn from by decide]
  | taprootAnnex =>
    have hsn : sub = none := by
      simpa [subPresenceOk, Option.isNone_iff_eq_none] using hsub
    subst hsn
    have he : idToChars ⟨txid, .taprootAnnex, index, none⟩
        = txidToChars txid ++ ':' :: (['t', 'a'] ++ ':' :: natToChars index) := rfl
    rw [he, idFromChars_split3 _ _ _ _ (split3_parts _ _ _ htxc (by decide) hidx)]
    simp only [idFromParts, htx, hn,
      show typeFromCode ['t', 'a'] = some EmbeddingType.taprootAnnex from by decide]
  | bareEnvelope =>
    obtain ⟨si, rfl⟩ : ∃ si, sub = some si :=
      Option.isSome_iff_exists.mp (by simpa [subPresenceOk] using hsub)
    by_cases h0 : 0 < si
    · have he : idToChars ⟨txid, .bareEnvelope, index, some si⟩
          = txidToChars txid ++ ':' :: (['b', 'e']
            ++ ':' :: (natToChars index ++ ':' :: natToChars si)) := by
        simp only [idToChars]
        rw [if_pos h0]
      rw [he, idFromChars_split4 _ _ _ _ _
        (split4_parts _ _ _ _ htxc (by decide) hidx (natToChars_ne_colon si))]
      simp only [idFromParts, htx, hn, charsToNat_natToChars si,
        show typeFromCode ['b', 'e'] = some EmbeddingType.bareEnvelope from by decide]
    · have hsi : si = 0 := by omega
      subst hsi
      have he : idToChars ⟨txid, .bareEnvelope, index, some 0⟩
          = txidToChars txid ++ ':' :: (['b', 'e'] ++ ':' :: natToChars index) := rfl
      rw [he, idFromChars_split3 _ _ _ _ (split3_parts _ _ _ htxc (by decide) hidx)]
      simp only [idFromParts, htx, hn,
        show typeFromCode ['b', 'e'] = some EmbeddingType.bareEnvelope from by decide]
  | witnessEnvelope st =>
    obtain ⟨si, rfl⟩ : ∃ si, sub = some si :=
      Option.isSome_iff_exists.mp (by simpa [subPresenceOk] using hsub)
    cases st with
    | legacy =>
      by_cases h0 : 0 < si
      · have he : idToChars ⟨txid, .witnessEnvelope .legacy, index, some si⟩
            = txidToChars txid ++ ':' :: (['l', 'e']
              ++ ':' :: (natToChars index ++ ':' :: natToChars si)) := by
          simp only [idToChars]
          rw [if_pos h0]
        rw [he, idFromChars_split4 _ _ _ _ _
          (split4_parts _ _ _ _ htxc (by decide) hidx (natToChars_ne_colon si))]
        simp only [idFromParts, htx, hn, charsToNat_natToChars si,
          show typeFromCode ['l', 'e']
              = some (EmbeddingType.witnessEnvelope ScriptType.legacy) from by decide]
      · have hsi : si = 0 := by omega
        subst hsi
        have he : idToChars ⟨txid, .witnessEnvelope .legacy, index, some 0⟩
            = txidToChars txid ++ ':' :: (['l', 'e'] ++ ':' :: natToChars index) := rfl
        rw [he, idFromChars_split3 _ _ _ _ (split3_parts _ _ _ htxc (by decide) hidx)]
        simp only [idFromParts, htx, hn,
          show typeFromCode ['l', 'e']
              = some (EmbeddingType.witnessEnvelope ScriptType.legacy) from by decide]
    | tapscript =>
      by_cases h0 : 0 < si
      · have he : idToChars ⟨txid, .witnessEnvelope .tapscript, index, some si⟩
            = txidToChars txid ++ ':' :: (['t', 'e']
              ++ ':' :: (natToChars index ++ ':' :: natToChars si)) := by
          simp only [idToChars]
          rw [if_pos h0]
        rw [he, idFromChars_split4 _ _ _ _ _
          (split4_parts _ _ _ _ htxc (by decide) hidx (natToChars_ne_colon si))]
        simp only [idFromParts, htx, hn, charsToNat_natToChars si,
          show typeFromCode ['t', 'e']
              = some (EmbeddingType.witnessEnvelope ScriptType.tapscript) from by decide]
      · have hsi : si = 0 := by omega
        subst hsi
        have he : idToChars ⟨txid, .witnessEnvelope .tapscript, index, some 0⟩
            = txidToChars txid ++ ':' :: (['t', 'e'] ++ ':' :: natToChars index) := rfl
        rw [he, idFromChars_split3 _ _ _ _ (split3_parts _ _ _ htxc (by decide) hidx)]
        simp only [idFromParts, htx, hn,
          show typeFromCode ['t', 'e']
              = some (EmbeddingType.witnessEnvelope ScriptType.tapscript) from by decide]

/-- C9, witness: the identifier round trip evaluated on a concrete bare
envelope id whose explicit sub index 0 is omitted from the string form
yet re-parses to 0. -/
theorem claim_C9_witness :
    idFromChars (idToChars ⟨List.replicate 32 0, .bareEnvelope, 1, some 0⟩)
      = .ok ⟨List.replicate 32 0, .bareEnvelope, 1, some 0⟩ :=
  claim_C9_roundtrip ⟨List.replicate 32 0, .bareEnvelope, 1, some 0⟩
    (by decide) (by decide) (by decide)

end BitcoinEmbed
